import Mathlib

/-!
Verification of the RAG ingestion/indexing pipeline and retrieval tool of
this repository, as a shallow embedding in Lean 4.

Modules embedded:
* `app/agent.py` — `VectorSearchTool.execute` (query-time retrieval);
* `app/data_ingestion.py` — per-URL fetchers and `ingest_urls` (Collector);
* `app/embedding.py` — `get_embeddings_with_retry`, `generate_embeddings` (Embedder);
* `app/indexing.py` — `upload_data_to_gcs`, `create_and_deploy_index` (Indexer).

External services (HTTP fetch, transcript API, BeautifulSoup text extraction,
the embedding service, object storage, the ANN index service) are modelled as
explicit oracles / state, following the contracts in spec section 6; the code
of this repository itself is translated line by line from the source.
-/

set_option autoImplicit false

/-! ### Retrieval tool: `app/agent.py`, `VectorSearchTool.execute` -/

/-- One entry of a neighbor's `metadata.strings` list (a `name` / `string_value`
pair), as consumed by `VectorSearchTool.execute`. -/
structure MetadataString where
  name : String
  string_value : String
deriving DecidableEq, Repr

/-- One neighbor in a query result set. -/
structure Neighbor where
  strings : List MetadataString
deriving DecidableEq, Repr

/-- One query result set (`response.nearest_neighbors[i]`), holding the
neighbors for one query of the request. -/
structure QueryResultSet where
  neighbors : List Neighbor
deriving DecidableEq, Repr

/-- The `find_neighbors` response: one result set per query of the request. -/
structure FindNeighborsResponse where
  nearest_neighbors : List QueryResultSet
deriving DecidableEq, Repr

/-- Model of `next(item.string_value for item in neighbor.metadata.strings if item.name == attr)`:
the first metadata entry named `attr`, `none` when absent (where Python would
raise `StopIteration`). -/
def findAttr (n : Neighbor) (attr : String) : Option String :=
  (n.strings.find? (fun item => item.name == attr)).map (fun item => item.string_value)

/-- The `f"Source: {source}\nContent: {text}"` block built for one neighbor in
the loop body of `execute`; `none` when a required attribute is missing. -/
def neighborBlock (n : Neighbor) : Option String := do
  let t ← findAttr n "text"
  let s ← findAttr n "source"
  pure ("Source: " ++ s ++ "\nContent: " ++ t)

/-- The neighbors the loop of `execute` actually iterates over:
`response.nearest_neighbors[0].neighbors` when `response.nearest_neighbors`
is nonempty, nothing otherwise. -/
def firstSetNeighbors (r : FindNeighborsResponse) : List Neighbor :=
  match r.nearest_neighbors with
  | [] => []
  | q :: _ => q.neighbors

/-- The sentinel returned by `execute` when `results` is empty. -/
def noResultsMessage : String := "No relevant documents found in the knowledge base."

/-- The `results` list accumulated by the `for neighbor in ...` loop; `none`
models an uncaught exception from a missing metadata attribute. -/
def collectBlocks : List Neighbor → Option (List String)
  | [] => some []
  | n :: ns => do
    let b ← neighborBlock n
    let rest ← collectBlocks ns
    pure (b :: rest)

/-- Model of `VectorSearchTool.execute` from the point where the `find_neighbors`
response is in hand: build `results` from the FIRST result set only, then
return the sentinel when `results` is empty and `"\n\n".join(results)`
otherwise. -/
def vectorSearchExecute (r : FindNeighborsResponse) : Option String :=
  (collectBlocks (firstSetNeighbors r)).map (fun results =>
    if results.isEmpty then noResultsMessage else String.intercalate "\n\n" results)

/-- All neighbors across ALL returned query result sets, in order. -/
def allSetsNeighbors (r : FindNeighborsResponse) : List Neighbor :=
  (r.nearest_neighbors.map (fun q => q.neighbors)).flatten

/-- Modelled from the spec: the retrieval behaviour claimed in the spec,
"a formatted concatenation of Source / Content blocks for all neighbors across
all returned query result sets", to be compared with `vectorSearchExecute`. -/
def vectorSearchExecuteAllSetsSpec (r : FindNeighborsResponse) : Option String :=
  (collectBlocks (allSetsNeighbors r)).map (fun results =>
    if results.isEmpty then noResultsMessage else String.intercalate "\n\n" results)

/-- A neighbor carrying text `t1` and source `s1`. -/
def exNeighbor1 : Neighbor :=
  ⟨[⟨"text", "t1"⟩, ⟨"source", "s1"⟩]⟩

/-- A neighbor carrying text `t2` and source `s2`. -/
def exNeighbor2 : Neighbor :=
  ⟨[⟨"text", "t2"⟩, ⟨"source", "s2"⟩]⟩

/-- A response holding two query result sets, each with one neighbor. -/
def exTwoSetResponse : FindNeighborsResponse :=
  ⟨[⟨[exNeighbor1]⟩, ⟨[exNeighbor2]⟩]⟩

/-- A response holding a single result set with one neighbor. -/
def exOneSetResponse : FindNeighborsResponse :=
  ⟨[⟨[exNeighbor1, exNeighbor2]⟩]⟩

/-! ### Collector: `app/data_ingestion.py` -/

/-- An HTTP response as seen by `requests.get`: a status code and a body. -/
structure HttpPage where
  status : Nat
  content : String
deriving DecidableEq, Repr

/-- The external world the Collector's fetchers talk to: the HTTP client
(`requests.get`; `.error` models a raised `requests.exceptions.RequestException`,
covering network errors, timeouts and malformed responses), the transcript API
(`YouTubeTranscriptApi.get_transcript`; `.error` models any raised exception,
e.g. a missing transcript), the BeautifulSoup text-extraction pipeline
(`" ".join(soup.stripped_strings)` after decomposing script/style tags), and
`urlparse(url).netloc`. -/
structure FetchWorld where
  httpResult : String → Except String HttpPage
  transcriptApi : String → Except String (List String)
  extractText : String → String
  netloc : String → String

/-- Whether the character list starts with the given pattern. -/
def startsWithChars : List Char → List Char → Bool
  | _, [] => true
  | [], _ :: _ => false
  | c :: cs, d :: ds => c == d && startsWithChars cs ds

/-- Whether the pattern occurs somewhere in the character list. -/
def hasSubChars : List Char → List Char → Bool
  | [], pat => pat.isEmpty
  | c :: cs, pat => startsWithChars (c :: cs) pat || hasSubChars cs pat

/-- Python's `sub in s` substring test. -/
def strContains (s sub : String) : Bool := hasSubChars s.data sub.data

/-- Model of `get_youtube_transcript`: split the URL on `"v="` and take part 1 (the
`IndexError` when it is absent is caught by the `except`), call the transcript
API, and join the segment texts with spaces; any exception raised inside the
`try` is caught and turned into `None`. -/
def get_youtube_transcript (w : FetchWorld) (url : String) : Option String :=
  match (url.splitOn "v=")[1]? with
  | none => none
  | some video_id =>
    match w.transcriptApi video_id with
    | .error _ => none
    | .ok transcript_list => some (String.intercalate " " transcript_list)

/-- Model of `scrape_web_page`: issue the HTTP request and return the extracted page
text; a raised `RequestException` is caught and turned into `None`. The
response's HTTP status code is never consulted. -/
def scrape_web_page (w : FetchWorld) (url : String) : Option String :=
  match w.httpResult url with
  | .error _ => none
  | .ok page => some (w.extractText page.content)

/-- Model of `get_github_repo_content`: the explicitly unimplemented GitHub fetcher —
logs a skip and returns `None`. -/
def get_github_repo_content (_w : FetchWorld) (_url : String) : Option String :=
  none

/-- The per-URL dispatch inside `ingest_urls`: transcript fetch for a
`youtube.com` domain, the unimplemented GitHub fetcher for a `github.com`
domain, generic page scrape otherwise. -/
def fetchContent (w : FetchWorld) (url : String) : Option String :=
  let domain := w.netloc url
  if strContains domain "youtube.com" then get_youtube_transcript w url
  else if strContains domain "github.com" then get_github_repo_content w url
  else scrape_web_page w url

/-- One chunk record `{id, text, source, title}` as written by `ingest_urls`;
the fresh ids produced by `uuid.uuid4()` are modelled by a counter supply, so
`id : Nat`. -/
structure ChunkRecord where
  id : Nat
  text : String
  source : String
  title : String
deriving DecidableEq, Repr

/-- The `for chunk in chunks:` loop of `ingest_urls`: one record per chunk in
chunk order, each with a freshly generated id (the next id from the supply
`n`), the chunk as `text`, the URL as `source` and its domain as `title`. -/
def recordsFor (w : FetchWorld) (url : String) : Nat → List String → List ChunkRecord
  | _, [] => []
  | n, c :: cs => ⟨n, c, url, w.netloc url⟩ :: recordsFor w url (n + 1) cs

/-- The URL loop of `ingest_urls`: `split` is the text splitter's
`split_text`, `n` the next fresh id. A URL whose fetch yields `None` or an
empty string (`if content:` is false) contributes no records and the loop
moves on to the next URL. -/
def ingestLoop (w : FetchWorld) (split : String → List String) : Nat → List String → List ChunkRecord
  | _, [] => []
  | n, url :: rest =>
    match fetchContent w url with
    | none => ingestLoop w split n rest
    | some content =>
      if content.isEmpty then ingestLoop w split n rest
      else
        let chunks := split content
        recordsFor w url n chunks ++ ingestLoop w split (n + chunks.length) rest

/-- Model of `ingest_urls`: the output file is opened in mode `"w"`, so the previous
file content `prev` is discarded and the file ends up holding exactly this
run's records. -/
def ingest_urls (w : FetchWorld) (split : String → List String)
    (urls : List String) (_prev : List ChunkRecord) : List ChunkRecord :=
  ingestLoop w split 0 urls

/-- How many chunk records (fresh ids) a list of URLs consumes: the total
chunk count over its URLs that yield content. -/
def chunkCount (w : FetchWorld) (split : String → List String) : List String → Nat
  | [] => 0
  | url :: rest =>
    match fetchContent w url with
    | none => chunkCount w split rest
    | some content =>
      if content.isEmpty then chunkCount w split rest
      else (split content).length + chunkCount w split rest

/-- Modelled from the spec: the text splitter
(`RecursiveCharacterTextSplitter(chunk_size=CHUNK_SIZE, chunk_overlap=CHUNK_OVERLAP)`)
is third-party library code not in this repository; per spec section 4.1 it
splits a text into chunks of at most `size` characters with `ov` characters
shared between consecutive chunks. Modelled over character lists: emit a
window of `size` characters and continue `size - ov` characters further on,
until the remainder fits in one chunk. -/
def chunkText (size ov : Nat) (text : List Char) : List (List Char) :=
  if h : size ≤ ov ∨ text.length ≤ size then [text]
  else text.take size :: chunkText size ov (text.drop (size - ov))
termination_by text.length
decreasing_by
  simp only [List.length_drop]
  push_neg at h
  omega

/-! ### Embedder: `app/embedding.py` -/

/-- An embedding vector (`embeddings[j].values`); its numeric entries play no
role in any claim, so coordinates are modelled as integers. -/
abbrev EmbVector := List Int

/-- A chunk record with the `"embedding"` field attached — the only change
`generate_embeddings` makes to a record before writing it. -/
structure EmbeddedRecord where
  chunk : ChunkRecord
  embedding : EmbVector
deriving DecidableEq, Repr

/-- One trace of `get_embeddings_with_retry`: the result, the backoff delays
slept (`time.sleep(delay)`) in order, and the attempt indices on which the
embedding service was actually called. -/
structure RetryTrace where
  result : Except String (List EmbVector)
  sleeps : List Nat
  calls : List Nat
deriving Repr

/-- The `for _ in range(5)` loop of `get_embeddings_with_retry`: `svc a` is
the service outcome on attempt `a`; on success return immediately, on failure
sleep `delay` seconds and double the delay; when the loop ends, raise
`Exception("Failed to get embeddings after multiple retries.")`. -/
def retryLoop (svc : Nat → Except String (List EmbVector)) : Nat → Nat → Nat → RetryTrace
  | 0, _, _ => ⟨.error "Failed to get embeddings after multiple retries.", [], []⟩
  | fuel + 1, attempt, delay =>
    match svc attempt with
    | .ok v => ⟨.ok v, [], [attempt]⟩
    | .error _ =>
      let t := retryLoop svc fuel (attempt + 1) (delay * 2)
      ⟨t.result, delay :: t.sleeps, attempt :: t.calls⟩

/-- Model of `get_embeddings_with_retry`: up to 5 attempts, initial delay 1 second. -/
def get_embeddings_with_retry (svc : Nat → Except String (List EmbVector)) : RetryTrace :=
  retryLoop svc 5 0 1

/-- The batch accumulator of `generate_embeddings`: append each incoming
record to `batch` and flush it whenever `len(batch) >= EMBEDDING_BATCH_SIZE`;
after the input is exhausted, flush a nonempty leftover batch. Returns the
flushed batches in flush order. -/
def runBatches {α : Type} (B : Nat) : List α → List α → List (List α)
  | batch, [] => if batch.isEmpty then [] else [batch]
  | batch, r :: rs =>
    let b := batch ++ [r]
    if B ≤ b.length then b :: runBatches B [] rs else runBatches B b rs

/-- The per-batch body of `generate_embeddings`: call the embedding service
through the retry wrapper — `svc i texts` is the already-retried outcome of
the `i`-th service call, `none` meaning all retries failed, the `except`
caught the raised exception and the batch is skipped — then write each record
of the batch with `embeddings[j].values` attached. Were the service to return
fewer vectors than records, the `IndexError` at `embeddings[j]` would be
raised after the first `len(embeddings)` records were already written and then
caught by the batch's `except`, so exactly the `zip` records are written. -/
def processBatch (svc : Nat → List String → Option (List EmbVector)) (i : Nat)
    (batch : List ChunkRecord) : List EmbeddedRecord :=
  match svc i (batch.map (fun r => r.text)) with
  | none => []
  | some vecs => (batch.zip vecs).map (fun p => ⟨p.1, p.2⟩)

/-- Process the flushed batches in order, the `i`-th flushed batch with the
`i`-th service call, concatenating what each batch writes to the output
file. -/
def processAll (svc : Nat → List String → Option (List EmbVector)) :
    Nat → List (List ChunkRecord) → List EmbeddedRecord
  | _, [] => []
  | i, b :: bs => processBatch svc i b ++ processAll svc (i + 1) bs

/-- Model of `generate_embeddings`: stream the input records, flush batches of size
`B = EMBEDDING_BATCH_SIZE`, and process the flushed batches in order. -/
def generate_embeddings (svc : Nat → List String → Option (List EmbVector)) (B : Nat)
    (records : List ChunkRecord) : List EmbeddedRecord :=
  processAll svc 0 (runBatches B [] records)

/-- The per-call service outcome as `generate_embeddings` sees it:
`get_embeddings_with_retry` for the `i`-th call, with the exception it raises
on exhaustion caught by the batch's `except` (hence `none`). `attemptSvc i
texts a` is the raw embedding-service outcome of attempt `a` of call `i`. -/
def retriedService
    (attemptSvc : Nat → List String → Nat → Except String (List EmbVector)) :
    Nat → List String → Option (List EmbVector) :=
  fun i texts => ((get_embeddings_with_retry (fun a => attemptSvc i texts a)).result).toOption

/-! ### Indexer: `app/indexing.py` -/

/-- One entry of an index's `deployed_indexes`: the resource name of the
endpoint it is deployed to and the deployment identifier. Resource names are
modelled as numbers drawn from a fresh supply. -/
structure DeployedIndexRef where
  index_endpoint : Nat
  deployed_index_id : String
deriving DecidableEq, Repr

/-- A `MatchingEngineIndex` resource. -/
structure IndexResource where
  resource_name : Nat
  display_name : String
  contents_uri : String
  deployed_indexes : List DeployedIndexRef
deriving DecidableEq, Repr

/-- A `MatchingEngineIndexEndpoint` resource. -/
structure EndpointResource where
  resource_name : Nat
  display_name : String
deriving DecidableEq, Repr

/-- The state of the external object-storage and ANN index services (spec
section 6) as the Indexer observes and mutates it; `nextId` is the supply of
fresh resource names. -/
structure CloudState where
  buckets : List String
  blobs : List (String × String)
  indexes : List IndexResource
  endpoints : List EndpointResource
  nextId : Nat
deriving DecidableEq, Repr

/-- The characters after the last `'/'` of the list, accumulator-reversed. -/
def baseNameChars : List Char → List Char → List Char
  | [], acc => acc.reverse
  | c :: cs, acc => if c = '/' then baseNameChars cs [] else baseNameChars cs (c :: acc)

/-- Model of `os.path.basename`. -/
def baseName (path : String) : String := ⟨baseNameChars path.data []⟩

/-- The result of `upload_data_to_gcs`: the updated service state, the
returned GCS URI, and whether an upload was actually performed. -/
structure UploadResult where
  state : CloudState
  uri : String
  uploaded : Bool
deriving DecidableEq, Repr

/-- Model of `upload_data_to_gcs`: get-or-create the bucket, compute the destination
blob name by joining the folder and the file's basename, skip the upload when
a blob already exists at that name, upload otherwise, and return the `gs://`
URI either way. -/
def upload_data_to_gcs (s : CloudState) (source_file bucket_name destination_folder : String) :
    UploadResult :=
  let s1 := if bucket_name ∈ s.buckets then s
    else { s with buckets := bucket_name :: s.buckets }
  let destination_blob_name := destination_folder ++ "/" ++ baseName source_file
  let uri := "gs://" ++ bucket_name ++ "/" ++ destination_blob_name
  if (bucket_name, destination_blob_name) ∈ s1.blobs then ⟨s1, uri, false⟩
  else ⟨{ s1 with blobs := (bucket_name, destination_blob_name) :: s1.blobs }, uri, true⟩

/-- Model of `MatchingEngineIndex.create_tree_ah_index` followed by `wait()`: a new
index resource with a fresh resource name, the given contents URI and no
deployments; the service state records it. -/
def createIndex (s : CloudState) (dn uri : String) : CloudState × IndexResource :=
  let idx : IndexResource := ⟨s.nextId, dn, uri, []⟩
  ({ s with indexes := s.indexes ++ [idx], nextId := s.nextId + 1 }, idx)

/-- Model of `MatchingEngineIndexEndpoint.create(display_name, public_endpoint_enabled=True)`:
a new endpoint resource with a fresh resource name. -/
def createEndpoint (s : CloudState) (dn : String) : CloudState × EndpointResource :=
  let ep : EndpointResource := ⟨s.nextId, dn⟩
  ({ s with endpoints := s.endpoints ++ [ep], nextId := s.nextId + 1 }, ep)

/-- Model of `my_endpoint.deploy_index(...)` run to completion: the service records the
deployment on the index resource, whose `deployed_indexes` gains a reference
to the endpoint under the deployment id. -/
def deployIndex (s : CloudState) (idx : IndexResource) (ep : EndpointResource)
    (depId : String) : CloudState :=
  { s with indexes := s.indexes.map (fun i =>
      if i.resource_name = idx.resource_name then
        { i with deployed_indexes := i.deployed_indexes ++ [⟨ep.resource_name, depId⟩] }
      else i) }

/-- Phases 4–6 of `create_and_deploy_index`: find the endpoint with
`ENDPOINT_DISPLAY_NAME` (first match of the listing) or create it, build the
time-suffixed deployment id
`f"deployed_{INDEX_DISPLAY_NAME.replace('_','')}_{int(time.time())}"`,
deploy, and return the endpoint's identity. -/
def deployPhase (indexDN endpointDN : String) (timeNow : Nat) (s : CloudState)
    (idx : IndexResource) : CloudState × Nat :=
  let found := s.endpoints.find? (fun e => e.display_name == endpointDN)
  let se : CloudState × EndpointResource := match found with
    | some ep => (s, ep)
    | none => createEndpoint s endpointDN
  let deployed_index_id := "deployed_" ++ (indexDN.replace "_" "") ++ "_" ++ toString timeNow
  (deployIndex se.1 idx se.2 deployed_index_id, se.2.resource_name)

/-- Model of `create_and_deploy_index`: look up the index by `INDEX_DISPLAY_NAME`
(first match of the listing); when found and already deployed, immediately
return the first deployment's endpoint with no state change; when found but
undeployed, reuse it; when absent, create it from the uploaded object's URI;
then converge the endpoint and deploy. Returns the updated service state and
the resource name of the returned endpoint. -/
def create_and_deploy_index (indexDN endpointDN gcs_uri : String) (timeNow : Nat)
    (s : CloudState) : CloudState × Nat :=
  match s.indexes.find? (fun i => i.display_name == indexDN) with
  | some idx =>
    match idx.deployed_indexes with
    | d :: _ => (s, d.index_endpoint)
    | [] => deployPhase indexDN endpointDN timeNow s idx
  | none =>
    let si := createIndex s indexDN gcs_uri
    deployPhase indexDN endpointDN timeNow si.1 si.2

/-- One full Indexer run (the `__main__` block): upload the embedded data
file, then converge index, endpoint and deployment. Records the final state,
the returned endpoint identity, and whether this run uploaded. -/
structure IndexerRunResult where
  state : CloudState
  endpointId : Nat
  uploaded : Bool
deriving DecidableEq, Repr

/-- One Indexer run with configuration `file`, `bucket`, `folder`, `indexDN`,
`endpointDN` at wall-clock time `timeNow`, starting from service state `s`. -/
def indexerRun (file bucket folder indexDN endpointDN : String) (timeNow : Nat)
    (s : CloudState) : IndexerRunResult :=
  let up := upload_data_to_gcs s file bucket folder
  let r := create_and_deploy_index indexDN endpointDN up.uri timeNow up.state
  ⟨r.1, r.2, up.uploaded⟩

/-! ### Concrete example inputs used by witnesses and counterexamples -/

/-- Example world for C2: every HTTP request raises and every transcript
lookup raises. -/
def exFailWorld : FetchWorld :=
  ⟨fun _ => .error "connection refused", fun _ => .error "no transcript",
    fun s => s, fun _ => "example.com"⟩

/-- Example world for C10: every HTTP request completes with a 404 response
whose body is the error page; text extraction is the identity. -/
def ex404World : FetchWorld :=
  ⟨fun _ => .ok ⟨404, "Not Found"⟩, fun _ => .error "no transcript",
    fun s => s, fun _ => "example.com"⟩

/-- Always-failing raw embedding service for the C3 witness. -/
def exFailAttemptSvc : Nat → List String → Nat → Except String (List EmbVector) :=
  fun _ _ _ => .error "rate limited"

/-- Seven chunk records, for the C4 scenario witness. -/
def exRecords7 : List ChunkRecord :=
  [⟨1, "a", "s", "d"⟩, ⟨2, "b", "s", "d"⟩, ⟨3, "c", "s", "d"⟩, ⟨4, "d", "s", "d"⟩,
    ⟨5, "e", "s", "d"⟩, ⟨6, "f", "s", "d"⟩, ⟨7, "g", "s", "d"⟩]

/-- Per-call embedding outcomes for the C4 witness: call 0 succeeds with one
vector per text, every later call has exhausted its retries. -/
def exSvc : Nat → List String → Option (List EmbVector) :=
  fun i texts => if i = 0 then some (texts.map (fun _ => [])) else none

/-- An empty service state, for the C6 witness. -/
def exEmptyCloud : CloudState := ⟨[], [], [], [], 0⟩

/-! ### Theorems for claim C1 -/

theorem collectBlocks_eq_filterMap (l : List Neighbor)
    (h : ∀ n ∈ l, (neighborBlock n).isSome) :
    collectBlocks l = some (l.filterMap neighborBlock) := by
  induction l with
  | nil => rfl
  | cons n ns ih =>
    have hn : (neighborBlock n).isSome := h n (by simp)
    obtain ⟨b, hb⟩ := Option.isSome_iff_exists.mp hn
    have hns := ih (fun m hm => h m (by simp [hm]))
    simp [collectBlocks, hb, hns, List.filterMap_cons]

theorem filterMap_isEmpty_of_isSome (l : List Neighbor)
    (h : ∀ n ∈ l, (neighborBlock n).isSome) :
    (l.filterMap neighborBlock).isEmpty = l.isEmpty := by
  cases l with
  | nil => rfl
  | cons n ns =>
    have hn : (neighborBlock n).isSome := h n (by simp)
    obtain ⟨b, hb⟩ := Option.isSome_iff_exists.mp hn
    simp [List.filterMap_cons, hb]

/-- Claim C1 (corrected, counterexample): `execute` does NOT cover all
neighbors across all query result sets: on a response with two result sets it
returns only the first set's block, differing from the spec-worded
all-result-sets rendering which also covers the second set's neighbor. -/
theorem vectorSearchExecute_not_all_sets :
    vectorSearchExecute exTwoSetResponse = some "Source: s1\nContent: t1" ∧
    vectorSearchExecuteAllSetsSpec exTwoSetResponse =
      some "Source: s1\nContent: t1\n\nSource: s2\nContent: t2" ∧
    vectorSearchExecute exTwoSetResponse ≠ vectorSearchExecuteAllSetsSpec exTwoSetResponse := by
  refine ⟨by decide, by decide, by decide⟩

/-- Claim C1 (amended): for every response whose first result set's neighbors
all carry `text` and `source` metadata, `execute` returns the concatenation of
`Source / Content` blocks for all neighbors of the FIRST result set (the only
set present for the single query it sends), and returns the literal sentinel
"No relevant documents found in the knowledge base." when no neighbors are
returned — never an empty string or an error. -/
theorem vectorSearchExecute_first_set (r : FindNeighborsResponse)
    (h : ∀ n ∈ firstSetNeighbors r, (neighborBlock n).isSome) :
    vectorSearchExecute r =
      some (if (firstSetNeighbors r).isEmpty then noResultsMessage
        else String.intercalate "\n\n" ((firstSetNeighbors r).filterMap neighborBlock)) := by
  unfold vectorSearchExecute
  rw [collectBlocks_eq_filterMap _ h, Option.map_some', filterMap_isEmpty_of_isSome _ h]

/-- Witness for C1's amended theorem at concrete responses: a one-set response
with two neighbors, and the no-neighbors response yielding the sentinel. -/
theorem vectorSearchExecute_first_set_witness :
    ((∀ n ∈ firstSetNeighbors exOneSetResponse, (neighborBlock n).isSome) ∧
      vectorSearchExecute exOneSetResponse =
        some (if (firstSetNeighbors exOneSetResponse).isEmpty then noResultsMessage
          else String.intercalate "\n\n"
            ((firstSetNeighbors exOneSetResponse).filterMap neighborBlock))) ∧
    vectorSearchExecute ⟨[]⟩ = some noResultsMessage := by
  refine ⟨⟨by decide, vectorSearchExecute_first_set exOneSetResponse (by decide)⟩, by decide⟩

/-! ### Theorems for claims C2 and C10 (Collector error handling) -/

/-- Claim C2: a fetch failure for a URL — a raised `RequestException`
(network error, malformed response) from the HTTP client and, for a video
URL, a missing `v=` id or a raised transcript-API exception — is caught
inside the per-URL fetcher, the URL yields no content, and the loop's output
for the remaining URLs is exactly what it would have been without that URL;
in particular no exception from fetching a single URL aborts `ingest_urls`. -/
theorem ingest_fetch_failure_skipped (w : FetchWorld) (split : String → List String)
    (n : Nat) (u : String) (rest : List String)
    (hhttp : ∃ e, w.httpResult u = .error e)
    (hyt : ∀ video_id, (u.splitOn "v=")[1]? = some video_id →
      ∃ e, w.transcriptApi video_id = .error e) :
    fetchContent w u = none ∧
    ingestLoop w split n (u :: rest) = ingestLoop w split n rest := by
  obtain ⟨e1, he1⟩ := hhttp
  have hfc : fetchContent w u = none := by
    have hsc : scrape_web_page w u = none := by
      unfold scrape_web_page
      rw [he1]
    have htr : get_youtube_transcript w u = none := by
      unfold get_youtube_transcript
      rcases hv : (u.splitOn "v=")[1]? with _ | vid
      · rfl
      · obtain ⟨e2, he2⟩ := hyt vid hv
        simp [he2]
    by_cases h1 : strContains (w.netloc u) "youtube.com" = true
    · simp [fetchContent, h1, htr]
    · by_cases h2 : strContains (w.netloc u) "github.com" = true
      · simp [fetchContent, h1, h2, get_github_repo_content]
      · simp [fetchContent, h1, h2, hsc]
  exact ⟨hfc, by simp [ingestLoop, hfc]⟩

/-- Witness for C2: in a world where both external services raise, a failing
URL contributes nothing and the next URL is still processed. -/
theorem ingest_fetch_failure_skipped_witness :
    (∃ e, exFailWorld.httpResult "https://example.com/a" = .error e) ∧
    (∀ video_id, ("https://example.com/a".splitOn "v=")[1]? = some video_id →
      ∃ e, exFailWorld.transcriptApi video_id = .error e) ∧
    (fetchContent exFailWorld "https://example.com/a" = none ∧
      ingestLoop exFailWorld (fun s => [s]) 0 ["https://example.com/a", "https://x.org"] =
        ingestLoop exFailWorld (fun s => [s]) 0 ["https://x.org"]) :=
  ⟨⟨"connection refused", rfl⟩, fun _ _ => ⟨"no transcript", rfl⟩,
    ingest_fetch_failure_skipped exFailWorld (fun s => [s]) 0 "https://example.com/a"
      ["https://x.org"] ⟨"connection refused", rfl⟩ (fun _ _ => ⟨"no transcript", rfl⟩)⟩

/-- Claim C10: `scrape_web_page` performs no HTTP status check — whenever the
HTTP request completes, the extracted body text is returned as content
whatever `page.status` is (404 included), and `ingest_urls` then chunks and
writes it like any successful page. -/
theorem scrape_ignores_status (w : FetchWorld) (url : String) (page : HttpPage)
    (split : String → List String) (n : Nat) (rest : List String)
    (hok : w.httpResult url = .ok page)
    (hyt : strContains (w.netloc url) "youtube.com" = false)
    (hgh : strContains (w.netloc url) "github.com" = false)
    (hne : (w.extractText page.content).isEmpty = false) :
    scrape_web_page w url = some (w.extractText page.content) ∧
    ingestLoop w split n (url :: rest) =
      recordsFor w url n (split (w.extractText page.content)) ++
        ingestLoop w split (n + (split (w.extractText page.content)).length) rest := by
  have hs : scrape_web_page w url = some (w.extractText page.content) := by
    unfold scrape_web_page
    rw [hok]
  have hfc : fetchContent w url = some (w.extractText page.content) := by
    simp [fetchContent, hyt, hgh, hs]
  exact ⟨hs, by simp [ingestLoop, hfc, hne]⟩

/-- Witness for C10: a completed request with status 404 and body
"Not Found" is scraped, chunked and written like any page. -/
theorem scrape_ignores_status_witness :
    (ex404World.httpResult "https://example.com/a" = .ok ⟨404, "Not Found"⟩ ∧
      strContains (ex404World.netloc "https://example.com/a") "youtube.com" = false ∧
      strContains (ex404World.netloc "https://example.com/a") "github.com" = false ∧
      (ex404World.extractText (HttpPage.mk 404 "Not Found").content).isEmpty = false) ∧
    (scrape_web_page ex404World "https://example.com/a" =
        some (ex404World.extractText (HttpPage.mk 404 "Not Found").content) ∧
      ingestLoop ex404World (fun s => [s]) 0 ["https://example.com/a"] =
        recordsFor ex404World "https://example.com/a" 0
            ((fun s => [s]) (ex404World.extractText (HttpPage.mk 404 "Not Found").content)) ++
          ingestLoop ex404World (fun s => [s])
            (0 + ((fun s => [s]) (ex404World.extractText (HttpPage.mk 404 "Not Found").content)).length) []) :=
  ⟨⟨rfl, by decide, by decide, by decide⟩,
    scrape_ignores_status ex404World "https://example.com/a" ⟨404, "Not Found"⟩
      (fun s => [s]) 0 [] rfl (by decide) (by decide) (by decide)⟩

/-! ### Theorems for claim C8 (Collector run guarantees) -/

theorem recordsFor_id_bounds (w : FetchWorld) (url : String) :
    ∀ (cs : List String) (n : Nat) (r : ChunkRecord), r ∈ recordsFor w url n cs →
      n ≤ r.id ∧ r.id < n + cs.length := by
  intro cs
  induction cs with
  | nil => intro n r hr; simp [recordsFor] at hr
  | cons c cs ih =>
    intro n r hr
    simp only [recordsFor, List.mem_cons] at hr
    rcases hr with rfl | hr2
    · simp
    · obtain ⟨h1, h2⟩ := ih (n + 1) r hr2
      refine ⟨by omega, ?_⟩
      simp only [List.length_cons]
      omega

theorem recordsFor_fields (w : FetchWorld) (url : String) :
    ∀ (cs : List String) (n : Nat) (r : ChunkRecord), r ∈ recordsFor w url n cs →
      r.source = url ∧ r.title = w.netloc url := by
  intro cs
  induction cs with
  | nil => intro n r hr; simp [recordsFor] at hr
  | cons c cs ih =>
    intro n r hr
    simp only [recordsFor, List.mem_cons] at hr
    rcases hr with rfl | hr2
    · exact ⟨rfl, rfl⟩
    · exact ih (n + 1) r hr2

theorem recordsFor_pairwise (w : FetchWorld) (url : String) :
    ∀ (cs : List String) (n : Nat),
      (recordsFor w url n cs).Pairwise (fun a b => a.id < b.id) := by
  intro cs
  induction cs with
  | nil => intro n; simp [recordsFor]
  | cons c cs ih =>
    intro n
    simp only [recordsFor]
    refine List.Pairwise.cons ?_ (ih (n + 1))
    intro b hb
    obtain ⟨h1, _⟩ := recordsFor_id_bounds w url cs (n + 1) b hb
    show n < b.id
    omega

theorem ingestLoop_id_lb (w : FetchWorld) (split : String → List String) :
    ∀ (urls : List String) (n : Nat) (r : ChunkRecord),
      r ∈ ingestLoop w split n urls → n ≤ r.id := by
  intro urls
  induction urls with
  | nil => intro n r hr; simp [ingestLoop] at hr
  | cons url rest ih =>
    intro n r hr
    cases hfc : fetchContent w url with
    | none =>
      simp only [ingestLoop, hfc] at hr
      exact ih n r hr
    | some content =>
      by_cases hemp : content.isEmpty = true
      · simp only [ingestLoop, hfc, hemp, if_true] at hr
        exact ih n r hr
      · simp only [ingestLoop, hfc, hemp, if_false, Bool.false_eq_true] at hr
        rcases List.mem_append.mp hr with hl | hrr
        · exact (recordsFor_id_bounds w url (split content) n r hl).1
        · have := ih (n + (split content).length) r hrr
          omega

theorem ingestLoop_fields (w : FetchWorld) (split : String → List String) :
    ∀ (urls : List String) (n : Nat) (r : ChunkRecord), r ∈ ingestLoop w split n urls →
      r.source ∈ urls ∧ r.title = w.netloc r.source := by
  intro urls
  induction urls with
  | nil => intro n r hr; simp [ingestLoop] at hr
  | cons url rest ih =>
    intro n r hr
    cases hfc : fetchContent w url with
    | none =>
      simp only [ingestLoop, hfc] at hr
      obtain ⟨h1, h2⟩ := ih n r hr
      exact ⟨List.mem_cons_of_mem url h1, h2⟩
    | some content =>
      by_cases hemp : content.isEmpty = true
      · simp only [ingestLoop, hfc, hemp, if_true] at hr
        obtain ⟨h1, h2⟩ := ih n r hr
        exact ⟨List.mem_cons_of_mem url h1, h2⟩
      · simp only [ingestLoop, hfc, hemp, if_false, Bool.false_eq_true] at hr
        rcases List.mem_append.mp hr with hl | hrr
        · obtain ⟨h1, h2⟩ := recordsFor_fields w url (split content) n r hl
          rw [h1]
          exact ⟨List.mem_cons_self url rest, h2⟩
        · obtain ⟨h1, h2⟩ := ih (n + (split content).length) r hrr
          exact ⟨List.mem_cons_of_mem url h1, h2⟩

theorem ingestLoop_pairwise (w : FetchWorld) (split : String → List String) :
    ∀ (urls : List String) (n : Nat),
      (ingestLoop w split n urls).Pairwise (fun a b => a.id < b.id) := by
  intro urls
  induction urls with
  | nil => intro n; simp [ingestLoop]
  | cons url rest ih =>
    intro n
    cases hfc : fetchContent w url with
    | none =>
      simp only [ingestLoop, hfc]
      exact ih n
    | some content =>
      by_cases hemp : content.isEmpty = true
      · simp only [ingestLoop, hfc, hemp, if_true]
        exact ih n
      · simp only [ingestLoop, hfc, hemp, if_false, Bool.false_eq_true]
        refine List.pairwise_append.mpr ⟨recordsFor_pairwise w url (split content) n, ih _, ?_⟩
        intro a ha b hb
        obtain ⟨_, h2⟩ := recordsFor_id_bounds w url (split content) n a ha
        have h3 := ingestLoop_id_lb w split rest (n + (split content).length) b hb
        omega

theorem ingestLoop_append (w : FetchWorld) (split : String → List String) :
    ∀ (us1 us2 : List String) (n : Nat), ingestLoop w split n (us1 ++ us2) =
      ingestLoop w split n us1 ++ ingestLoop w split (n + chunkCount w split us1) us2 := by
  intro us1
  induction us1 with
  | nil => intro us2 n; simp [ingestLoop, chunkCount]
  | cons u us ih =>
    intro us2 n
    cases hfc : fetchContent w u with
    | none =>
      simp only [List.cons_append, ingestLoop, hfc, chunkCount]
      exact ih us2 n
    | some content =>
      by_cases hemp : content.isEmpty = true
      · simp only [List.cons_append, ingestLoop, hfc, chunkCount, hemp, if_true]
        exact ih us2 n
      · simp only [List.cons_append, ingestLoop, hfc, chunkCount, hemp, if_false,
          Bool.false_eq_true, List.append_eq]
        rw [ih us2 (n + (split content).length), List.append_assoc, Nat.add_assoc]

/-- Claim C8: in every Collector run the output file is fully rewritten — the
output does not depend on the previous file content `prev`; URLs are processed
in configured list order — the output for `us1 ++ us2` is the output for `us1`
followed by the output for `us2` with the id supply advanced; every id
generated in the run is distinct from every other; and every emitted record
carries its URL as `source` and that URL's domain as `title`. -/
theorem ingest_urls_run_properties (w : FetchWorld) (split : String → List String)
    (urls : List String) (prev : List ChunkRecord) :
    ingest_urls w split urls prev = ingest_urls w split urls [] ∧
    (∀ us1 us2, urls = us1 ++ us2 →
      ingest_urls w split urls prev =
        ingestLoop w split 0 us1 ++ ingestLoop w split (chunkCount w split us1) us2) ∧
    (ingest_urls w split urls prev).Pairwise (fun a b => a.id ≠ b.id) ∧
    (∀ r ∈ ingest_urls w split urls prev, r.source ∈ urls ∧ r.title = w.netloc r.source) := by
  refine ⟨rfl, ?_, ?_, ?_⟩
  · intro us1 us2 h
    subst h
    simpa using ingestLoop_append w split us1 us2 0
  · exact (ingestLoop_pairwise w split urls 0).imp (fun h => Nat.ne_of_lt h)
  · exact ingestLoop_fields w split urls 0

/-! ### Theorems for claim C7 (chunk length and overlap bounds) -/

theorem chunkText_chunk_le (size ov : Nat) (hov : ov < size) :
    ∀ (N : Nat) (text : List Char), text.length ≤ N →
      ∀ c ∈ chunkText size ov text, c.length ≤ size := by
  intro N
  induction N with
  | zero =>
    intro text hlen c hc
    have htext : text.length ≤ size := by omega
    rw [chunkText, dif_pos (Or.inr htext)] at hc
    simp only [List.mem_singleton] at hc
    subst hc
    exact htext
  | succ N ih =>
    intro text hlen c hc
    by_cases hcond : size ≤ ov ∨ text.length ≤ size
    · rw [chunkText, dif_pos hcond] at hc
      simp only [List.mem_singleton] at hc
      subst hc
      rcases hcond with h | h
      · omega
      · exact h
    · rw [chunkText, dif_neg hcond] at hc
      push_neg at hcond
      rcases List.mem_cons.mp hc with rfl | hc2
      · simp only [List.length_take]
        exact Nat.min_le_left _ _
      · refine ih (text.drop (size - ov)) ?_ c hc2
        simp only [List.length_drop]
        omega

theorem chunkText_head_take (size ov : Nat) (t : List Char) (hov : ov < size) :
    ∃ c₀ tail, chunkText size ov t = c₀ :: tail ∧ c₀.take ov = t.take ov := by
  by_cases hcond : size ≤ ov ∨ t.length ≤ size
  · exact ⟨t, [], by rw [chunkText, dif_pos hcond], rfl⟩
  · refine ⟨t.take size, chunkText size ov (t.drop (size - ov)),
      by rw [chunkText, dif_neg hcond], ?_⟩
    rw [List.take_take, Nat.min_eq_left hov.le]

theorem chunkText_consecutive (size ov : Nat) (hov : ov < size) :
    ∀ (N : Nat) (text : List Char), text.length ≤ N →
      ∀ i c₁ c₂, (chunkText size ov text)[i]? = some c₁ →
        (chunkText size ov text)[i + 1]? = some c₂ →
        c₁.drop (c₁.length - ov) = c₂.take ov := by
  intro N
  induction N with
  | zero =>
    intro text hlen i c₁ c₂ h1 h2
    rw [chunkText, dif_pos (Or.inr (by omega))] at h2
    rcases i with _ | i <;> simp at h2
  | succ N ih =>
    intro text hlen i c₁ c₂ h1 h2
    by_cases hcond : size ≤ ov ∨ text.length ≤ size
    · rw [chunkText, dif_pos hcond] at h2
      rcases i with _ | i <;> simp at h2
    · rw [chunkText, dif_neg hcond] at h1 h2
      push_neg at hcond
      obtain ⟨hos, hts⟩ := hcond
      rcases i with _ | i
      · simp only [List.getElem?_cons_zero, Option.some.injEq] at h1
        subst h1
        obtain ⟨c₀, tail, hrec, hc0⟩ := chunkText_head_take size ov (text.drop (size - ov)) hov
        rw [List.getElem?_cons_succ, hrec, List.getElem?_cons_zero,
          Option.some.injEq] at h2
        subst h2
        rw [hc0]
        have hlen1 : (text.take size).length = size := by
          simp only [List.length_take]
          omega
        rw [hlen1, List.drop_take]
        congr 1
        omega
      · rw [List.getElem?_cons_succ] at h1 h2
        refine ih (text.drop (size - ov)) ?_ i c₁ c₂ h1 h2
        simp only [List.length_drop]
        omega

/-- Claim C7 (splitter modelled from the spec, third-party code): for any
input text, every chunk the splitter produces has length at most `CHUNK_SIZE`,
and any two consecutive chunks share exactly the configured overlap region —
the last `ov` characters of one chunk are the first `ov` characters of the
next — hence at most `CHUNK_OVERLAP` characters of overlap. -/
theorem chunkText_bounds (size ov : Nat) (text : List Char) (hov : ov < size) :
    (∀ c ∈ chunkText size ov text, c.length ≤ size) ∧
    (∀ i c₁ c₂, (chunkText size ov text)[i]? = some c₁ →
      (chunkText size ov text)[i + 1]? = some c₂ →
      c₁.drop (c₁.length - ov) = c₂.take ov ∧ (c₂.take ov).length ≤ ov) :=
  ⟨chunkText_chunk_le size ov hov text.length text le_rfl,
    fun i c₁ c₂ h1 h2 =>
      ⟨chunkText_consecutive size ov hov text.length text le_rfl i c₁ c₂ h1 h2,
        by rw [List.length_take]; exact Nat.min_le_left _ _⟩⟩

/-- Witness for C7: the 8-character text `abcdefgh` split with
`CHUNK_SIZE = 5`, `CHUNK_OVERLAP = 2`. -/
theorem chunkText_bounds_witness :
    2 < 5 ∧
    ((∀ c ∈ chunkText 5 2 "abcdefgh".data, c.length ≤ 5) ∧
      (∀ i c₁ c₂, (chunkText 5 2 "abcdefgh".data)[i]? = some c₁ →
        (chunkText 5 2 "abcdefgh".data)[i + 1]? = some c₂ →
        c₁.drop (c₁.length - 2) = c₂.take 2 ∧ (c₂.take 2).length ≤ 2)) :=
  ⟨by decide, chunkText_bounds 5 2 "abcdefgh".data (by decide)⟩

/-! ### Batch-structure lemmas for the Embedder (`runBatches`, `processAll`) -/

theorem runBatches_cons_emit {α : Type} (B : Nat) (pre : List α) (r : α) (rest : List α)
    (h : B ≤ (pre ++ [r]).length) :
    runBatches B pre (r :: rest) = (pre ++ [r]) :: runBatches B [] rest := by
  simp only [runBatches, h, if_true]

theorem runBatches_cons_acc {α : Type} (B : Nat) (pre : List α) (r : α) (rest : List α)
    (h : ¬ B ≤ (pre ++ [r]).length) :
    runBatches B pre (r :: rest) = runBatches B (pre ++ [r]) rest := by
  simp only [runBatches, h, if_false]

theorem runBatches_extend {α : Type} (B : Nat) :
    ∀ (suf pre l : List α), (pre ++ suf).length < B →
      runBatches B pre (suf ++ l) = runBatches B (pre ++ suf) l := by
  intro suf
  induction suf with
  | nil => intro pre l h; simp
  | cons s suf ih =>
    intro pre l h
    have hlt : ¬ B ≤ (pre ++ [s]).length := by
      simp only [List.length_append, List.length_cons, List.length_nil] at h ⊢
      omega
    have h2 : ((pre ++ [s]) ++ suf).length < B := by
      simp only [List.length_append, List.length_cons, List.length_nil] at h ⊢
      omega
    rw [List.cons_append, runBatches_cons_acc B pre s (suf ++ l) hlt,
      ih (pre ++ [s]) l h2, List.append_assoc]
    rfl

theorem runBatches_flush {α : Type} (B : Nat) :
    ∀ (suf pre l : List α), (pre ++ suf).length = B → suf ≠ [] →
      runBatches B pre (suf ++ l) = (pre ++ suf) :: runBatches B [] l := by
  intro suf
  induction suf with
  | nil => intro pre l h hne; exact absurd rfl hne
  | cons s suf ih =>
    intro pre l h hne
    rcases suf with _ | ⟨s2, suf2⟩
    · have hB : B ≤ (pre ++ [s]).length := by
        simp only [List.length_append, List.length_cons, List.length_nil] at h ⊢
        omega
      rw [List.cons_append, List.nil_append, runBatches_cons_emit B pre s l hB]
    · have hlt : ¬ B ≤ (pre ++ [s]).length := by
        simp only [List.length_append, List.length_cons, List.length_nil] at h ⊢
        omega
      have h2 : ((pre ++ [s]) ++ (s2 :: suf2)).length = B := by
        simp only [List.length_append, List.length_cons, List.length_nil] at h ⊢
        omega
      rw [List.cons_append, runBatches_cons_acc B pre s ((s2 :: suf2) ++ l) hlt,
        ih (pre ++ [s]) l h2 (by simp), List.append_assoc]
      rfl

theorem runBatches_step {α : Type} (B : Nat) (hB : 1 ≤ B) (l : List α) (hl : l ≠ []) :
    runBatches B [] l = l.take B :: runBatches B [] (l.drop B) := by
  by_cases hlen : B ≤ l.length
  · have h1 : (([] : List α) ++ l.take B).length = B := by
      simp only [List.nil_append, List.length_take]
      omega
    have h2 : l.take B ≠ [] := by
      intro hz
      have hz2 := congrArg List.length hz
      simp only [List.length_take, List.length_nil] at hz2
      omega
    have := runBatches_flush B (l.take B) [] (l.drop B) h1 h2
    simpa [List.take_append_drop] using this
  · push_neg at hlen
    have h1 : (([] : List α) ++ l).length < B := by simpa using hlen
    have h2 := runBatches_extend B l [] [] h1
    rw [List.append_nil, List.nil_append] at h2
    rw [h2]
    have h3 : runBatches B l ([] : List α) = [l] := by
      have : l.isEmpty = false := by
        cases l with
        | nil => exact absurd rfl hl
        | cons a as => rfl
      simp [runBatches, this]
    rw [h3, List.take_of_length_le hlen.le, List.drop_eq_nil_of_le hlen.le]
    rfl

theorem runBatches_flatten {α : Type} (B : Nat) :
    ∀ (l acc : List α), (runBatches B acc l).flatten = acc ++ l := by
  intro l
  induction l with
  | nil =>
    intro acc
    cases acc with
    | nil => simp [runBatches]
    | cons a as => simp [runBatches]
  | cons r rs ih =>
    intro acc
    simp only [runBatches]
    by_cases h : B ≤ (acc ++ [r]).length
    · simp only [h, if_true, List.flatten_cons, ih []]
      simp
    · simp only [h, if_false]
      rw [ih (acc ++ [r])]
      simp

theorem runBatches_eq_nil {α : Type} (B : Nat) (l : List α) :
    runBatches B [] l = [] ↔ l = [] := by
  constructor
  · intro h
    have := runBatches_flatten B l []
    rw [h] at this
    simpa using this.symm
  · intro h
    subst h
    rfl

theorem runBatches_length (B : Nat) (hB : 1 ≤ B) {α : Type} :
    ∀ (N : Nat) (l : List α), l.length ≤ N →
      (runBatches B [] l).length = (l.length + B - 1) / B := by
  intro N
  induction N with
  | zero =>
    intro l h
    have hl : l = [] := List.eq_nil_of_length_eq_zero (by omega)
    subst hl
    have hd : (0 + B - 1) / B = 0 := Nat.div_eq_of_lt (by omega)
    simp only [List.length_nil]
    rw [hd]
    rfl
  | succ N ih =>
    intro l h
    rcases eq_or_ne l [] with rfl | hne
    · have hd : (0 + B - 1) / B = 0 := Nat.div_eq_of_lt (by omega)
      simp only [List.length_nil]
      rw [hd]
      rfl
    · have hpos : 0 < l.length := List.length_pos.mpr hne
      rw [runBatches_step B hB l hne]
      simp only [List.length_cons]
      by_cases hlen : B ≤ l.length
      · rw [ih (l.drop B) (by simp only [List.length_drop]; omega)]
        simp only [List.length_drop]
        have e2 : l.length - B + B - 1 = l.length - 1 := by omega
        have e1 : l.length + B - 1 = l.length - 1 + B := by omega
        rw [e2, e1, Nat.add_div_right _ (by omega)]
      · push_neg at hlen
        have hd : l.drop B = [] := List.drop_eq_nil_of_le (by omega)
        rw [hd]
        have h1 : 1 * B ≤ l.length + B - 1 := by omega
        have h2 : l.length + B - 1 < (1 + 1) * B := by omega
        rw [Nat.div_eq_of_lt_le h1 h2]
        rfl

theorem runBatches_dropLast_full (B : Nat) (hB : 1 ≤ B) {α : Type} :
    ∀ (N : Nat) (l : List α), l.length ≤ N →
      ∀ b ∈ (runBatches B [] l).dropLast, b.length = B := by
  intro N
  induction N with
  | zero =>
    intro l h b hb
    have hl : l = [] := List.eq_nil_of_length_eq_zero (by omega)
    subst hl
    simp [runBatches] at hb
  | succ N ih =>
    intro l h b hb
    rcases eq_or_ne l [] with rfl | hne
    · simp [runBatches] at hb
    · rw [runBatches_step B hB l hne] at hb
      rcases hrec : runBatches B [] (l.drop B) with _ | ⟨b2, bs2⟩
      · rw [hrec] at hb
        simp at hb
      · rw [hrec] at hb
        have hd : l.drop B ≠ [] := by
          intro hz
          rw [hz] at hrec
          simp [runBatches] at hrec
        have hBl : B < l.length := by
          by_contra hc
          push_neg at hc
          exact hd (List.drop_eq_nil_of_le hc)
        have hdl : (l.take B :: b2 :: bs2).dropLast = l.take B :: (b2 :: bs2).dropLast := rfl
        rw [hdl] at hb
        rcases List.mem_cons.mp hb with rfl | hb2
        · simp only [List.length_take]
          omega
        · refine ih (l.drop B) (by simp only [List.length_drop]; omega) b ?_
          rw [hrec]
          exact hb2

theorem runBatches_getLast (B : Nat) (hB : 1 ≤ B) {α : Type} :
    ∀ (N : Nat) (l : List α), l.length ≤ N → l ≠ [] →
      ∃ lb, (runBatches B [] l).getLast? = some lb ∧
        lb.length = if l.length % B = 0 then B else l.length % B := by
  intro N
  induction N with
  | zero =>
    intro l h hne
    exact absurd (List.eq_nil_of_length_eq_zero (by omega)) hne
  | succ N ih =>
    intro l h hne
    have hpos : 0 < l.length := List.length_pos.mpr hne
    by_cases hle : l.length ≤ B
    · have hrun : runBatches B [] l = [l] := by
        rw [runBatches_step B hB l hne, List.drop_eq_nil_of_le hle,
          List.take_of_length_le hle]
        rfl
      rw [hrun]
      refine ⟨l, rfl, ?_⟩
      by_cases hmod : l.length % B = 0
      · rw [if_pos hmod]
        rcases Nat.lt_or_ge l.length B with h1 | h1
        · rw [Nat.mod_eq_of_lt h1] at hmod
          omega
        · omega
      · rw [if_neg hmod]
        have hlt : l.length < B := by
          rcases Nat.lt_or_ge l.length B with h1 | h1
          · exact h1
          · have he : l.length = B := by omega
            rw [he, Nat.mod_self] at hmod
            exact absurd rfl hmod
        rw [Nat.mod_eq_of_lt hlt]
    · push_neg at hle
      rw [runBatches_step B hB l hne]
      have hdne : l.drop B ≠ [] := by
        intro hz
        have hz2 := congrArg List.length hz
        simp only [List.length_drop, List.length_nil] at hz2
        omega
      obtain ⟨lb, hlb1, hlb2⟩ := ih (l.drop B) (by simp only [List.length_drop]; omega) hdne
      refine ⟨lb, ?_, ?_⟩
      · obtain ⟨b2, bs2, hbb⟩ :=
          List.exists_cons_of_ne_nil ((runBatches_eq_nil B (l.drop B)).not.mpr hdne |>
            fun h => h)
        · rw [hbb]
          rw [hbb] at hlb1
          rw [List.getLast?_cons_cons]
          exact hlb1
      · rw [hlb2]
        simp only [List.length_drop]
        have hmm : (l.length - B) % B = l.length % B := by
          conv_rhs => rw [show l.length = l.length - B + B by omega]
          rw [Nat.add_mod_right]
        rw [hmm]

theorem processBatch_none (svc : Nat → List String → Option (List EmbVector))
    (i : Nat) (b : List ChunkRecord) (h : svc i (b.map (fun r => r.text)) = none) :
    processBatch svc i b = [] := by
  unfold processBatch
  rw [h]

theorem processBatch_some (svc : Nat → List String → Option (List EmbVector))
    (i : Nat) (b : List ChunkRecord) (vecs : List EmbVector)
    (h : svc i (b.map (fun r => r.text)) = some vecs) :
    processBatch svc i b = (b.zip vecs).map (fun p => ⟨p.1, p.2⟩) := by
  unfold processBatch
  rw [h]

theorem zip_map_fst_sublist {α β : Type} :
    ∀ (l1 : List α) (l2 : List β), ((l1.zip l2).map Prod.fst).Sublist l1 := by
  intro l1
  induction l1 with
  | nil => intro l2; simp
  | cons a l1 ih =>
    intro l2
    cases l2 with
    | nil => simp
    | cons b l2 =>
      simp only [List.zip_cons_cons, List.map_cons]
      exact List.Sublist.cons₂ a (ih l2)

theorem processBatch_map_chunk (svc : Nat → List String → Option (List EmbVector))
    (i : Nat) (b : List ChunkRecord) (vecs : List EmbVector)
    (hs : svc i (b.map (fun r => r.text)) = some vecs) (hlen : b.length ≤ vecs.length) :
    (processBatch svc i b).map (fun r => r.chunk) = b := by
  rw [processBatch_some svc i b vecs hs, List.map_map]
  have he : ((fun r => EmbeddedRecord.chunk r) ∘ fun p : ChunkRecord × EmbVector =>
      (⟨p.1, p.2⟩ : EmbeddedRecord)) = Prod.fst := rfl
  rw [he]
  exact List.map_fst_zip b vecs hlen

theorem processAll_append (svc : Nat → List String → Option (List EmbVector)) :
    ∀ (bs1 bs2 : List (List ChunkRecord)) (i : Nat),
      processAll svc i (bs1 ++ bs2) =
        processAll svc i bs1 ++ processAll svc (i + bs1.length) bs2 := by
  intro bs1
  induction bs1 with
  | nil => intro bs2 i; simp [processAll]
  | cons b bs ih =>
    intro bs2 i
    simp only [List.cons_append, processAll, List.length_cons, List.append_eq]
    rw [ih bs2 (i + 1), (by omega : i + 1 + bs.length = i + (bs.length + 1)),
      List.append_assoc]

theorem processAll_chunk_sublist (svc : Nat → List String → Option (List EmbVector)) :
    ∀ (bs : List (List ChunkRecord)) (i : Nat),
      ((processAll svc i bs).map (fun r => r.chunk)).Sublist bs.flatten := by
  intro bs
  induction bs with
  | nil => intro i; simp [processAll]
  | cons b bs ih =>
    intro i
    simp only [processAll, List.map_append, List.flatten_cons]
    refine List.Sublist.append ?_ (ih (i + 1))
    cases hs : svc i (b.map (fun r => r.text)) with
    | none => rw [processBatch_none svc i b hs]; simp
    | some vecs =>
      rw [processBatch_some svc i b vecs hs, List.map_map]
      have he : ((fun r => EmbeddedRecord.chunk r) ∘ fun p : ChunkRecord × EmbVector =>
          (⟨p.1, p.2⟩ : EmbeddedRecord)) = Prod.fst := rfl
      rw [he]
      exact zip_map_fst_sublist b vecs

theorem mem_zip_getElem {α β : Type} :
    ∀ (l1 : List α) (l2 : List β) (p : α × β), p ∈ l1.zip l2 →
      ∃ j : Nat, l1[j]? = some p.1 ∧ l2[j]? = some p.2 := by
  intro l1
  induction l1 with
  | nil => intro l2 p hp; simp at hp
  | cons a l1 ih =>
    intro l2 p hp
    cases l2 with
    | nil => simp at hp
    | cons b l2 =>
      simp only [List.zip_cons_cons, List.mem_cons] at hp
      rcases hp with rfl | hp2
      · exact ⟨0, by simp, by simp⟩
      · obtain ⟨j, h1, h2⟩ := ih l2 p hp2
        exact ⟨j + 1, by simpa using h1, by simpa using h2⟩

theorem processAll_mem_position (svc : Nat → List String → Option (List EmbVector)) :
    ∀ (bs : List (List ChunkRecord)) (i : Nat) (o : EmbeddedRecord), o ∈ processAll svc i bs →
      ∃ (jb : Nat) (b : List ChunkRecord) (vecs : List EmbVector) (j : Nat), bs[jb]? = some b ∧
        svc (i + jb) (b.map (fun r => r.text)) = some vecs ∧
        b[j]? = some o.chunk ∧ vecs[j]? = some o.embedding := by
  intro bs
  induction bs with
  | nil => intro i o ho; simp [processAll] at ho
  | cons b bs ih =>
    intro i o ho
    simp only [processAll] at ho
    rcases List.mem_append.mp ho with hl | hr
    · cases hs : svc i (b.map (fun r => r.text)) with
      | none =>
        rw [processBatch_none svc i b hs] at hl
        simp at hl
      | some vecs =>
        rw [processBatch_some svc i b vecs hs] at hl
        obtain ⟨p, hp, rfl⟩ := List.mem_map.mp hl
        obtain ⟨j, h1, h2⟩ := mem_zip_getElem b vecs p hp
        exact ⟨0, b, vecs, j, by simp, by simpa using hs, h1, h2⟩
    · obtain ⟨jb, b2, vecs, j, h1, h2, h3, h4⟩ := ih (i + 1) o hr
      refine ⟨jb + 1, b2, vecs, j, by simpa using h1, ?_, h3, h4⟩
      rw [(by omega : i + (jb + 1) = i + 1 + jb)]
      exact h2

theorem processAll_success (svc : Nat → List String → Option (List EmbVector)) :
    ∀ (bs : List (List ChunkRecord)) (i : Nat),
      (∀ j b, bs[j]? = some b → ∃ vecs, svc (i + j) (b.map (fun r => r.text)) = some vecs ∧
        vecs.length = b.length) →
      (processAll svc i bs).map (fun r => r.chunk) = bs.flatten := by
  intro bs
  induction bs with
  | nil => intro i h; simp [processAll]
  | cons b bs ih =>
    intro i h
    obtain ⟨vecs, hs, hlen⟩ := h 0 b (by simp)
    simp only [processAll, List.map_append, List.flatten_cons]
    rw [processBatch_map_chunk svc i b vecs (by simpa using hs) (by omega)]
    congr 1
    refine ih (i + 1) ?_
    intro j bj hbj
    obtain ⟨vecs2, hs2, hlen2⟩ := h (j + 1) bj (by simpa using hbj)
    refine ⟨vecs2, ?_, hlen2⟩
    rw [(by omega : i + 1 + j = i + (j + 1))]
    exact hs2

theorem processAll_eraseIdx (svc : Nat → List String → Option (List EmbVector)) (k : Nat) :
    ∀ (bs : List (List ChunkRecord)) (i : Nat),
      (∀ j b, bs[j]? = some b →
        (i + j = k → svc (i + j) (b.map (fun r => r.text)) = none) ∧
        (i + j ≠ k → ∃ vecs, svc (i + j) (b.map (fun r => r.text)) = some vecs ∧
          vecs.length = b.length)) →
      (processAll svc i bs).map (fun r => r.chunk) =
        (if k < i then bs else bs.eraseIdx (k - i)).flatten := by
  intro bs
  induction bs with
  | nil =>
    intro i h
    by_cases hki : k < i <;> simp [processAll, hki]
  | cons b bs ih =>
    intro i h
    have hshift : ∀ j bj, bs[j]? = some bj →
        (i + 1 + j = k → svc (i + 1 + j) (bj.map (fun r => r.text)) = none) ∧
        (i + 1 + j ≠ k → ∃ vecs, svc (i + 1 + j) (bj.map (fun r => r.text)) = some vecs ∧
          vecs.length = bj.length) := by
      intro j bj hbj
      have hh := h (j + 1) bj (by simpa using hbj)
      rw [(by omega : i + (j + 1) = i + 1 + j)] at hh
      exact hh
    by_cases hik : i = k
    · subst hik
      have h0 := (h 0 b (by simp)).1 (by omega)
      simp only [processAll, List.map_append]
      rw [processBatch_none svc i b (by simpa using h0)]
      rw [if_neg (by omega : ¬ i < i), Nat.sub_self, List.eraseIdx_cons_zero]
      simp only [List.map_nil, List.nil_append]
      refine processAll_success svc bs (i + 1) ?_
      intro j bj hbj
      exact (hshift j bj hbj).2 (by omega)
    · by_cases hki : k < i
      · rw [if_pos hki]
        refine processAll_success svc (b :: bs) i ?_
        intro j bj hbj
        exact (h j bj hbj).2 (by omega)
      · have hik2 : i < k := by omega
        obtain ⟨vecs, hs, hlen⟩ := (h 0 b (by simp)).2 (by omega)
        simp only [processAll, List.map_append]
        rw [processBatch_map_chunk svc i b vecs (by simpa using hs) (by omega)]
        rw [ih (i + 1) hshift]
        have hn1 : ¬ k < i + 1 := by omega
        have hn2 : ¬ k < i := by omega
        rw [if_neg hn1, if_neg hn2]
        rw [(by omega : k - i = (k - (i + 1)) + 1), List.eraseIdx_cons_succ,
          List.flatten_cons]

/-! ### Theorems for claims C3, C4, C5, C9 (Embedder) -/

/-- Claim C3: a call whose every attempt fails is attempted exactly 5 times
(service calls on attempts 0–4) with backoff sleeps of 1, 2, 4, 8, 16 seconds,
after which `get_embeddings_with_retry` gives up by raising; in
`generate_embeddings` the batch's `except` catches that exception, the batch
is abandoned (it writes no records), and the run continues: the output is the
earlier batches' writes followed by the processing of the batches after the
failing one. -/
theorem retry_exhaustion_continues
    (attemptSvc : Nat → List String → Nat → Except String (List EmbVector))
    (k : Nat)
    (hfail : ∀ texts a, a < 5 → ∃ e, attemptSvc k texts a = .error e) :
    (∀ texts,
      (get_embeddings_with_retry (fun a => attemptSvc k texts a)).calls = [0, 1, 2, 3, 4] ∧
      (get_embeddings_with_retry (fun a => attemptSvc k texts a)).sleeps = [1, 2, 4, 8, 16] ∧
      (get_embeddings_with_retry (fun a => attemptSvc k texts a)).result =
        .error "Failed to get embeddings after multiple retries." ∧
      retriedService attemptSvc k texts = none) ∧
    (∀ (B : Nat) (records : List ChunkRecord) (bs1 bs2 : List (List ChunkRecord))
        (b : List ChunkRecord),
      runBatches B [] records = bs1 ++ b :: bs2 → bs1.length = k →
      generate_embeddings (retriedService attemptSvc) B records =
        processAll (retriedService attemptSvc) 0 bs1 ++
          processAll (retriedService attemptSvc) (k + 1) bs2) := by
  have htrace : ∀ texts, get_embeddings_with_retry (fun a => attemptSvc k texts a) =
      ⟨.error "Failed to get embeddings after multiple retries.",
        [1, 2, 4, 8, 16], [0, 1, 2, 3, 4]⟩ := by
    intro texts
    obtain ⟨e0, h0⟩ := hfail texts 0 (by omega)
    obtain ⟨e1, h1⟩ := hfail texts 1 (by omega)
    obtain ⟨e2, h2⟩ := hfail texts 2 (by omega)
    obtain ⟨e3, h3⟩ := hfail texts 3 (by omega)
    obtain ⟨e4, h4⟩ := hfail texts 4 (by omega)
    simp [get_embeddings_with_retry, retryLoop, h0, h1, h2, h3, h4]
  have hnone : ∀ texts, retriedService attemptSvc k texts = none := by
    intro texts
    simp only [retriedService]
    rw [htrace texts]
    rfl
  refine ⟨fun texts => ⟨?_, ?_, ?_, hnone texts⟩, ?_⟩
  · rw [htrace texts]
  · rw [htrace texts]
  · rw [htrace texts]
  · intro B records bs1 bs2 b hrb hlen
    unfold generate_embeddings
    rw [hrb, processAll_append (retriedService attemptSvc) bs1 (b :: bs2) 0]
    rw [(by omega : 0 + bs1.length = k)]
    simp only [processAll]
    rw [processBatch_none (retriedService attemptSvc) k b (hnone _)]
    simp

/-- Witness for C3: a raw service failing on every attempt of every call;
the failing call is call 0 of a 3-record input with batch size 2. -/
theorem retry_exhaustion_continues_witness :
    (∀ texts a, a < 5 → ∃ e, exFailAttemptSvc 0 texts a = .error e) ∧
    ((∀ texts,
      (get_embeddings_with_retry (fun a => exFailAttemptSvc 0 texts a)).calls =
        [0, 1, 2, 3, 4] ∧
      (get_embeddings_with_retry (fun a => exFailAttemptSvc 0 texts a)).sleeps =
        [1, 2, 4, 8, 16] ∧
      (get_embeddings_with_retry (fun a => exFailAttemptSvc 0 texts a)).result =
        .error "Failed to get embeddings after multiple retries." ∧
      retriedService exFailAttemptSvc 0 texts = none) ∧
    (∀ (B : Nat) (records : List ChunkRecord) (bs1 bs2 : List (List ChunkRecord))
        (b : List ChunkRecord),
      runBatches B [] records = bs1 ++ b :: bs2 → bs1.length = 0 →
      generate_embeddings (retriedService exFailAttemptSvc) B records =
        processAll (retriedService exFailAttemptSvc) 0 bs1 ++
          processAll (retriedService exFailAttemptSvc) (0 + 1) bs2)) :=
  ⟨fun _ _ _ => ⟨"rate limited", rfl⟩,
    retry_exhaustion_continues exFailAttemptSvc 0 (fun _ _ _ => ⟨"rate limited", rfl⟩)⟩

/-- Claim C4: with `B = EMBEDDING_BATCH_SIZE ≥ 1` the Embedder issues exactly
`⌈N/B⌉` embedding-service calls over consecutive batches in file order — the
flushed batches concatenate back to the input, every batch but the last has
size exactly `B`, and the last has size `N mod B` when nonzero (`B`
otherwise); and when the `k`-th call fails after its retries while every other
call succeeds, the output holds exactly the other batches' records, in
order. -/
theorem generate_embeddings_batching
    (svc : Nat → List String → Option (List EmbVector)) (B : Nat)
    (records : List ChunkRecord) (k : Nat) (hB : 1 ≤ B)
    (hsvc : ∀ i b, (runBatches B [] records)[i]? = some b →
      (i = k → svc i (b.map (fun r => r.text)) = none) ∧
      (i ≠ k → ∃ vecs, svc i (b.map (fun r => r.text)) = some vecs ∧
        vecs.length = b.length)) :
    (runBatches B [] records).length = (records.length + B - 1) / B ∧
    (runBatches B [] records).flatten = records ∧
    (∀ b ∈ (runBatches B [] records).dropLast, b.length = B) ∧
    (records ≠ [] → ∃ lb, (runBatches B [] records).getLast? = some lb ∧
      lb.length = if records.length % B = 0 then B else records.length % B) ∧
    (generate_embeddings svc B records).map (fun r => r.chunk) =
      ((runBatches B [] records).eraseIdx k).flatten := by
  refine ⟨runBatches_length B hB records.length records le_rfl,
    by simpa using runBatches_flatten B records [],
    runBatches_dropLast_full B hB records.length records le_rfl,
    fun hne => runBatches_getLast B hB records.length records le_rfl hne, ?_⟩
  unfold generate_embeddings
  have hh := processAll_eraseIdx svc k (runBatches B [] records) 0 ?_
  · rw [hh]
    have hn : ¬ k < 0 := by omega
    rw [if_neg hn, Nat.sub_zero]
  · intro j b hb
    have := hsvc j b hb
    simpa using this

/-- Witness for C4: the spec scenario — 7 records with batch size 5 give 2
calls of sizes 5 and 2; when the second call (k = 1) exhausts its retries, the
output holds exactly the first 5 records. -/
theorem generate_embeddings_batching_witness :
    (1 ≤ 5 ∧
      (∀ i b, (runBatches 5 [] exRecords7)[i]? = some b →
        (i = 1 → exSvc i (b.map (fun r => r.text)) = none) ∧
        (i ≠ 1 → ∃ vecs, exSvc i (b.map (fun r => r.text)) = some vecs ∧
          vecs.length = b.length))) ∧
    ((runBatches 5 [] exRecords7).length = (exRecords7.length + 5 - 1) / 5 ∧
      (runBatches 5 [] exRecords7).flatten = exRecords7 ∧
      (∀ b ∈ (runBatches 5 [] exRecords7).dropLast, b.length = 5) ∧
      (exRecords7 ≠ [] → ∃ lb, (runBatches 5 [] exRecords7).getLast? = some lb ∧
        lb.length = if exRecords7.length % 5 = 0 then 5 else exRecords7.length % 5) ∧
      (generate_embeddings exSvc 5 exRecords7).map (fun r => r.chunk) =
        ((runBatches 5 [] exRecords7).eraseIdx 1).flatten) := by
  have hrb : runBatches 5 [] exRecords7 =
      [[⟨1, "a", "s", "d"⟩, ⟨2, "b", "s", "d"⟩, ⟨3, "c", "s", "d"⟩, ⟨4, "d", "s", "d"⟩,
        ⟨5, "e", "s", "d"⟩], [⟨6, "f", "s", "d"⟩, ⟨7, "g", "s", "d"⟩]] := by decide
  have hs : ∀ i b, (runBatches 5 [] exRecords7)[i]? = some b →
      (i = 1 → exSvc i (b.map (fun r => r.text)) = none) ∧
      (i ≠ 1 → ∃ vecs, exSvc i (b.map (fun r => r.text)) = some vecs ∧
        vecs.length = b.length) := by
    intro i b hb
    rw [hrb] at hb
    rcases i with _ | _ | i
    · simp only [List.getElem?_cons_zero, Option.some.injEq] at hb
      subst hb
      refine ⟨fun h => by omega, fun _ => ⟨_, rfl, by decide⟩⟩
    · simp only [List.getElem?_cons_succ, List.getElem?_cons_zero, Option.some.injEq] at hb
      subst hb
      exact ⟨fun _ => rfl, fun h => absurd rfl h⟩
    · simp at hb
  exact ⟨⟨by decide, hs⟩, generate_embeddings_batching exSvc 5 exRecords7 1 (by decide) hs⟩

/-- Claim C5: for every input and every batch size, the Embedder's output
preserves input order — the written records' chunk parts form a sublist of the
input, with no reordering within or across batches — and each written record's
embedding is the service-response vector at that record's positional index
within its batch. -/
theorem generate_embeddings_order_preserving
    (svc : Nat → List String → Option (List EmbVector)) (B : Nat)
    (records : List ChunkRecord) :
    ((generate_embeddings svc B records).map (fun r => r.chunk)).Sublist records ∧
    (∀ o ∈ generate_embeddings svc B records,
      ∃ (i : Nat) (b : List ChunkRecord) (vecs : List EmbVector) (j : Nat),
        (runBatches B [] records)[i]? = some b ∧
        svc i (b.map (fun r => r.text)) = some vecs ∧
        b[j]? = some o.chunk ∧ vecs[j]? = some o.embedding) := by
  constructor
  · have h1 := processAll_chunk_sublist svc (runBatches B [] records) 0
    rw [runBatches_flatten B records []] at h1
    simpa using h1
  · intro o ho
    obtain ⟨jb, b, vecs, j, h1, h2, h3, h4⟩ :=
      processAll_mem_position svc (runBatches B [] records) 0 o ho
    exact ⟨jb, b, vecs, j, h1, by simpa using h2, h3, h4⟩

/-- Claim C9: every record the Embedder writes keeps the corresponding input
record's `id`, `text`, `source` and `title` unchanged; the embedding is the
only field added (an output record is an input record plus its vector). -/
theorem generate_embeddings_frame
    (svc : Nat → List String → Option (List EmbVector)) (B : Nat)
    (records : List ChunkRecord) :
    ∀ o ∈ generate_embeddings svc B records,
      ∃ c ∈ records, o.chunk.id = c.id ∧ o.chunk.text = c.text ∧
        o.chunk.source = c.source ∧ o.chunk.title = c.title := by
  intro o ho
  have hsub := processAll_chunk_sublist svc (runBatches B [] records) 0
  rw [runBatches_flatten B records []] at hsub
  have hmem : o.chunk ∈ records := by
    have h2 : o.chunk ∈ (generate_embeddings svc B records).map (fun r => r.chunk) :=
      List.mem_map_of_mem (fun r => r.chunk) ho
    have h3 := hsub.subset
    simp only [List.nil_append] at h3
    exact h3 h2
  exact ⟨o.chunk, hmem, rfl, rfl, rfl, rfl⟩

/-! ### Theorems for claim C6 (Indexer idempotent convergence) -/

theorem upload_state_facts (s : CloudState) (f b d : String) :
    (upload_data_to_gcs s f b d).state.indexes = s.indexes ∧
    (upload_data_to_gcs s f b d).state.endpoints = s.endpoints ∧
    (upload_data_to_gcs s f b d).state.nextId = s.nextId ∧
    b ∈ (upload_data_to_gcs s f b d).state.buckets ∧
    (b, d ++ "/" ++ baseName f) ∈ (upload_data_to_gcs s f b d).state.blobs := by
  unfold upload_data_to_gcs
  by_cases h1 : b ∈ s.buckets <;>
    by_cases h2 : (b, d ++ "/" ++ baseName f) ∈ s.blobs <;>
      simp [h1, h2]

theorem upload_noop (s : CloudState) (f b d : String)
    (h1 : b ∈ s.buckets) (h2 : (b, d ++ "/" ++ baseName f) ∈ s.blobs) :
    (upload_data_to_gcs s f b d).state = s ∧
    (upload_data_to_gcs s f b d).uploaded = false := by
  unfold upload_data_to_gcs
  simp [h1, h2]

theorem find?_display_none_idx (l : List IndexResource) (dn : String)
    (h : ∀ i ∈ l, i.display_name ≠ dn) :
    l.find? (fun i => i.display_name == dn) = none :=
  List.find?_eq_none.mpr (fun x hx => by simpa using h x hx)

theorem find?_display_none_ep (l : List EndpointResource) (dn : String)
    (h : ∀ e ∈ l, e.display_name ≠ dn) :
    l.find? (fun e => e.display_name == dn) = none :=
  List.find?_eq_none.mpr (fun x hx => by simpa using h x hx)

theorem cdi_create (indexDN endpointDN uri : String) (t : Nat) (s : CloudState)
    (hidx : ∀ i ∈ s.indexes, i.display_name ≠ indexDN)
    (hep : ∀ e ∈ s.endpoints, e.display_name ≠ endpointDN) :
    create_and_deploy_index indexDN endpointDN uri t s =
      (⟨s.buckets, s.blobs,
        (s.indexes ++ [(⟨s.nextId, indexDN, uri, []⟩ : IndexResource)]).map
          (fun (i : IndexResource) =>
            if i.resource_name = s.nextId then
              { i with deployed_indexes := i.deployed_indexes ++
                  [(⟨s.nextId + 1,
                    "deployed_" ++ (indexDN.replace "_" "") ++ "_" ++ toString t⟩ :
                      DeployedIndexRef)] }
            else i),
        s.endpoints ++ [(⟨s.nextId + 1, endpointDN⟩ : EndpointResource)],
        s.nextId + 1 + 1⟩, s.nextId + 1) := by
  have hfind1 : s.indexes.find? (fun i => i.display_name == indexDN) = none :=
    find?_display_none_idx s.indexes indexDN hidx
  have hfind2 : s.endpoints.find? (fun e => e.display_name == endpointDN) = none :=
    find?_display_none_ep s.endpoints endpointDN hep
  simp only [create_and_deploy_index, hfind1, createIndex, deployPhase, createEndpoint,
    deployIndex, hfind2]

theorem cdi_deployed (indexDN endpointDN uri : String) (t : Nat) (s : CloudState)
    (idx : IndexResource) (d : DeployedIndexRef) (rest : List DeployedIndexRef)
    (hfind : s.indexes.find? (fun i => i.display_name == indexDN) = some idx)
    (hdep : idx.deployed_indexes = d :: rest) :
    create_and_deploy_index indexDN endpointDN uri t s = (s, d.index_endpoint) := by
  simp only [create_and_deploy_index, hfind, hdep]

theorem map_display_deploy (rn ep : Nat) (dep : String) (l : List IndexResource) :
    (l.map (fun i =>
      if i.resource_name = rn then
        { i with deployed_indexes := i.deployed_indexes ++ [⟨ep, dep⟩] }
      else i)).map (fun i => i.display_name) = l.map (fun i => i.display_name) := by
  rw [List.map_map]
  refine List.map_eq_map_iff.mpr ?_
  intro i _
  by_cases h : i.resource_name = rn <;> simp [h]

theorem find?_deploy_map (l : List IndexResource) (dn : String) (rn ep : Nat)
    (dep uri : String) (h : ∀ i ∈ l, i.display_name ≠ dn) :
    ((l ++ [(⟨rn, dn, uri, []⟩ : IndexResource)]).map (fun (i : IndexResource) =>
        if i.resource_name = rn then
          { i with deployed_indexes := i.deployed_indexes ++ [(⟨ep, dep⟩ : DeployedIndexRef)] }
        else i)).find? (fun i => i.display_name == dn) =
      some ⟨rn, dn, uri, [⟨ep, dep⟩]⟩ := by
  rw [List.map_append, List.find?_append]
  have h1 : (l.map (fun (i : IndexResource) =>
      if i.resource_name = rn then
        { i with deployed_indexes := i.deployed_indexes ++ [(⟨ep, dep⟩ : DeployedIndexRef)] }
      else i)).find? (fun i => i.display_name == dn) = none := by
    refine List.find?_eq_none.mpr ?_
    intro x hx
    obtain ⟨i, hi, rfl⟩ := List.mem_map.mp hx
    by_cases hc : i.resource_name = rn <;> simp [hc, h i hi]
  rw [h1]
  simp [List.find?]

/-- Claim C6: a second Indexer run with the same display names and input file
is idempotent — the second `create_and_deploy_index` finds the deployed index
and returns that deployment's endpoint immediately with no state change (no
index or endpoint created, nothing deployed), the second `upload_data_to_gcs`
performs no upload because the destination object already exists, and across
both runs exactly one index and one endpoint carrying the configured display
names were created, with the same endpoint identity returned. -/
theorem indexer_idempotent (file bucket folder indexDN endpointDN : String)
    (t1 t2 : Nat) (s0 : CloudState)
    (hidx : ∀ i ∈ s0.indexes, i.display_name ≠ indexDN)
    (hep : ∀ e ∈ s0.endpoints, e.display_name ≠ endpointDN) :
    (indexerRun file bucket folder indexDN endpointDN t2
        (indexerRun file bucket folder indexDN endpointDN t1 s0).state).state =
      (indexerRun file bucket folder indexDN endpointDN t1 s0).state ∧
    (indexerRun file bucket folder indexDN endpointDN t2
        (indexerRun file bucket folder indexDN endpointDN t1 s0).state).endpointId =
      (indexerRun file bucket folder indexDN endpointDN t1 s0).endpointId ∧
    (indexerRun file bucket folder indexDN endpointDN t2
        (indexerRun file bucket folder indexDN endpointDN t1 s0).state).uploaded = false ∧
    (indexerRun file bucket folder indexDN endpointDN t1 s0).state.indexes.map
        (fun i => i.display_name) =
      s0.indexes.map (fun i => i.display_name) ++ [indexDN] ∧
    (indexerRun file bucket folder indexDN endpointDN t1 s0).state.endpoints.map
        (fun e => e.display_name) =
      s0.endpoints.map (fun e => e.display_name) ++ [endpointDN] := by
  obtain ⟨hui, hue, hun, hub, hublob⟩ := upload_state_facts s0 file bucket folder
  set U := upload_data_to_gcs s0 file bucket folder with hUdef
  have hcr := cdi_create indexDN endpointDN U.uri t1 U.state
    (by rw [hui]; exact hidx) (by rw [hue]; exact hep)
  set C := create_and_deploy_index indexDN endpointDN U.uri t1 U.state with hCdef
  have hrun1 : indexerRun file bucket folder indexDN endpointDN t1 s0 =
      ⟨C.1, C.2, U.uploaded⟩ := by
    rw [hCdef, hUdef]
    rfl
  have hC2 : C.2 = U.state.nextId + 1 := by rw [hcr]
  have hub2 : bucket ∈ C.1.buckets := by rw [hcr]; exact hub
  have hublob2 : (bucket, folder ++ "/" ++ baseName file) ∈ C.1.blobs := by
    rw [hcr]; exact hublob
  have hnoop := upload_noop C.1 file bucket folder hub2 hublob2
  have hfind3 : C.1.indexes.find? (fun i => i.display_name == indexDN) =
      some ⟨U.state.nextId, indexDN, U.uri,
        [⟨U.state.nextId + 1,
          "deployed_" ++ (indexDN.replace "_" "") ++ "_" ++ toString t1⟩]⟩ := by
    rw [hcr]
    simp only []
    exact find?_deploy_map U.state.indexes indexDN U.state.nextId (U.state.nextId + 1)
      ("deployed_" ++ (indexDN.replace "_" "") ++ "_" ++ toString t1) U.uri
      (by rw [hui]; exact hidx)
  have hdep2 := cdi_deployed indexDN endpointDN
    (upload_data_to_gcs C.1 file bucket folder).uri t2 C.1
    ⟨U.state.nextId, indexDN, U.uri,
      [⟨U.state.nextId + 1,
        "deployed_" ++ (indexDN.replace "_" "") ++ "_" ++ toString t1⟩]⟩
    ⟨U.state.nextId + 1, "deployed_" ++ (indexDN.replace "_" "") ++ "_" ++ toString t1⟩
    [] hfind3 rfl
  have hrun2 : indexerRun file bucket folder indexDN endpointDN t2 C.1 =
      ⟨C.1, U.state.nextId + 1, false⟩ := by
    show (⟨(create_and_deploy_index indexDN endpointDN
        (upload_data_to_gcs C.1 file bucket folder).uri t2
        (upload_data_to_gcs C.1 file bucket folder).state).1,
      (create_and_deploy_index indexDN endpointDN
        (upload_data_to_gcs C.1 file bucket folder).uri t2
        (upload_data_to_gcs C.1 file bucket folder).state).2,
      (upload_data_to_gcs C.1 file bucket folder).uploaded⟩ : IndexerRunResult) =
        ⟨C.1, U.state.nextId + 1, false⟩
    rw [hnoop.1, hnoop.2, hdep2]
  have hs1 : (indexerRun file bucket folder indexDN endpointDN t1 s0).state = C.1 := by
    rw [hrun1]
  have he1 : (indexerRun file bucket folder indexDN endpointDN t1 s0).endpointId = C.2 := by
    rw [hrun1]
  refine ⟨?_, ?_, ?_, ?_, ?_⟩
  · rw [hs1, hrun2]
  · rw [hs1, he1, hrun2, hC2]
  · rw [hs1, hrun2]
  · rw [hs1, hcr]
    simp only []
    rw [map_display_deploy U.state.nextId (U.state.nextId + 1)
        ("deployed_" ++ (indexDN.replace "_" "") ++ "_" ++ toString t1)
        (U.state.indexes ++ [(⟨U.state.nextId, indexDN, U.uri, []⟩ : IndexResource)]),
      List.map_append, hui]
    rfl
  · rw [hs1, hcr]
    simp only []
    rw [List.map_append, hue]
    rfl

/-- Witness for C6: two Indexer runs from an empty service state with the
default display names. -/
theorem indexer_idempotent_witness :
    ((∀ i ∈ exEmptyCloud.indexes, i.display_name ≠ "my_rag_index") ∧
      (∀ e ∈ exEmptyCloud.endpoints, e.display_name ≠ "my_rag_endpoint")) ∧
    ((indexerRun "embedded_data.jsonl" "b" "f" "my_rag_index" "my_rag_endpoint" 20
        (indexerRun "embedded_data.jsonl" "b" "f" "my_rag_index" "my_rag_endpoint" 10
          exEmptyCloud).state).state =
      (indexerRun "embedded_data.jsonl" "b" "f" "my_rag_index" "my_rag_endpoint" 10
        exEmptyCloud).state ∧
    (indexerRun "embedded_data.jsonl" "b" "f" "my_rag_index" "my_rag_endpoint" 20
        (indexerRun "embedded_data.jsonl" "b" "f" "my_rag_index" "my_rag_endpoint" 10
          exEmptyCloud).state).endpointId =
      (indexerRun "embedded_data.jsonl" "b" "f" "my_rag_index" "my_rag_endpoint" 10
        exEmptyCloud).endpointId ∧
    (indexerRun "embedded_data.jsonl" "b" "f" "my_rag_index" "my_rag_endpoint" 20
        (indexerRun "embedded_data.jsonl" "b" "f" "my_rag_index" "my_rag_endpoint" 10
          exEmptyCloud).state).uploaded = false ∧
    (indexerRun "embedded_data.jsonl" "b" "f" "my_rag_index" "my_rag_endpoint" 10
        exEmptyCloud).state.indexes.map (fun i => i.display_name) =
      exEmptyCloud.indexes.map (fun i => i.display_name) ++ ["my_rag_index"] ∧
    (indexerRun "embedded_data.jsonl" "b" "f" "my_rag_index" "my_rag_endpoint" 10
        exEmptyCloud).state.endpoints.map (fun e => e.display_name) =
      exEmptyCloud.endpoints.map (fun e => e.display_name) ++ ["my_rag_endpoint"]) :=
  ⟨⟨by simp [exEmptyCloud], by simp [exEmptyCloud]⟩,
    indexer_idempotent "embedded_data.jsonl" "b" "f" "my_rag_index" "my_rag_endpoint"
      10 20 exEmptyCloud (by simp [exEmptyCloud]) (by simp [exEmptyCloud])⟩

/-- Witness for C9: a concrete record written by the Embedder run of the C4
scenario keeps all four chunk fields of an input record. -/
theorem generate_embeddings_frame_witness :
    (⟨⟨1, "a", "s", "d"⟩, []⟩ : EmbeddedRecord) ∈ generate_embeddings exSvc 5 exRecords7 ∧
    ∃ c ∈ exRecords7, (⟨⟨1, "a", "s", "d"⟩, []⟩ : EmbeddedRecord).chunk.id = c.id ∧
      (⟨⟨1, "a", "s", "d"⟩, []⟩ : EmbeddedRecord).chunk.text = c.text ∧
      (⟨⟨1, "a", "s", "d"⟩, []⟩ : EmbeddedRecord).chunk.source = c.source ∧
      (⟨⟨1, "a", "s", "d"⟩, []⟩ : EmbeddedRecord).chunk.title = c.title :=
  ⟨by decide,
    generate_embeddings_frame exSvc 5 exRecords7 ⟨⟨1, "a", "s", "d"⟩, []⟩ (by decide)⟩
